import Mathlib

/-!
Verification of the LDPC block decoder library (blockdecoder.cc) against its
natural-language specification.  The decoders are embedded shallowly: doubles
become exact rationals, `std::vector` state becomes lists / explicit state
passing, the iteration loops become fuel-indexed recursion.  All definitions
are transcribed from the C++ source; spec-side definitions used for
refinement comparisons are marked as such.
-/

unseal Rat.add Rat.mul Rat.sub Rat.inv Rat.ofScientific

/-- Sparse parity-check matrix, as described by the spec's data model
(`ctrlmat` sources are not part of the decoder translation unit):
`n` columns, `k` rows, `K i` the column indices of row `i`,
`N j` the row indices of column `j`. -/
structure CtrlMat where
  n : Nat
  k : Nat
  K : List (List Nat)
  N : List (List Nat)

/-- `vect[j]` for an int vector (out-of-range reads default to 0). -/
def nth (l : List Nat) (j : Nat) : Nat := l.getD j 0

/-- `vect[j]` for a double vector (out-of-range reads default to 0). -/
def nthQ (l : List ℚ) (j : Nat) : ℚ := l.getD j 0

/-- Row `i` of `K` (`H.K[i]`). -/
def Krow (H : CtrlMat) (i : Nat) : List Nat := H.K.getD i []

/-- Column `j` of `N` (`H.N[j]`). -/
def Ncol (H : CtrlMat) (j : Nat) : List Nat := H.N.getD j []

/-- `#define EPSILON_FLIP 0.001` (blockdecoder.cc line 16). -/
def EPSILON_FLIP : ℚ := 1 / 1000

/-- `std::numeric_limits<double>::max()` = (2 - 2^-52) * 2^1023
= 2^1024 - 2^971, written out so concrete instances evaluate. -/
def doubleMax : ℚ := 179769313486231570814527423731704356798070567525844996598917476803157260780028538760589558632766878171540458953514382464234321326889464182768467546703537516986049910576551282076245490090389328944075868508455133942304583236903222948165808559332123348274797826204144723168738177180919299881250404026184124858368

/-- `std::numeric_limits<int>::max()`. -/
def intMax : ℚ := 2147483647

/-- Hard decision `out[j] = in[j] < 0.0 ? 1 : 0`, shared by every decoder. -/
def hardDecision (inp : List ℚ) : List Nat :=
  inp.map (fun x => if x < 0 then 1 else 0)

/-- Syndrome bit of row `i`: `s[i] = 0; for (j : K[i]) s[i] ^= out[j]`. -/
def syndrome (H : CtrlMat) (out : List Nat) (i : Nat) : Nat :=
  (Krow H i).foldl (fun s j => s ^^^ nth out j) 0

/-- The `is_codeword` flag: scan the given row indices, clearing the flag on
any row whose syndrome bit equals 1. -/
def isCw (H : CtrlMat) (rows : List Nat) (out : List Nat) : Bool :=
  rows.all (fun i => syndrome H out i != 1)

/-- Row indices scanned by the bit-flipping syndrome loop
(`for (int i = 0; i < H.k; ++i)`, line 114). -/
def bfSyndromeRows (H : CtrlMat) : List Nat := List.range H.k

/-- Length of the bit-flipping syndrome vector (`std::vector<int> s(H.k, 0)`,
line 102). -/
def bfSyndromeLen (H : CtrlMat) : Nat := H.k

/-- Row indices scanned by OneStepMLG's syndrome loop
(`for (int i = 0; i < H.n; ++i)`, line 249). -/
def oneStepMLGSyndromeRows (H : CtrlMat) : List Nat := List.range H.n

/-- Length of OneStepMLG's syndrome vector (`std::vector<int> s(H.n)`,
line 239). -/
def oneStepMLGSyndromeLen (H : CtrlMat) : Nat := H.n

/-- Row indices scanned by the iterative MLG syndrome loop
(`for (int i = 0; i < H.n; ++i)`, line 352). -/
def mlgSyndromeRows (H : CtrlMat) : List Nat := List.range H.n

/-- Length of the iterative MLG syndrome vector (`std::vector<int> s(H.n)`,
line 309). -/
def mlgSyndromeLen (H : CtrlMat) : Nat := H.n

/-- Row indices scanned by min-sum's `hard_decide`
(`for (int i = 0; i < H.k; ++i)`, line 428). -/
def minSumSyndromeRows (H : CtrlMat) : List Nat := List.range H.k

/-- `hard_decide(out, H)` of the min-sum family (lines 426-436). -/
def hard_decide (out : List Nat) (H : CtrlMat) : Bool :=
  isCw H (minSumSyndromeRows H) out

/-- `std::abs` / `std::fabs`. -/
def cppAbs (a : ℚ) : ℚ := if a < 0 then -a else a

/-- `std::min(a, b)`: returns `b` exactly when `b < a`. -/
def cppMin (a b : ℚ) : ℚ := if b < a then b else a

/-- `std::max(a, b)`: returns `b` exactly when `a < b`. -/
def cppMax (a b : ℚ) : ℚ := if a < b then b else a

/-- `std::min(std::max(v, lo), hi)`. -/
def clamp (v lo hi : ℚ) : ℚ := cppMin (cppMax v lo) hi

/-- `std::round`: round half away from zero. -/
def roundQ (q : ℚ) : ℤ :=
  if q < 0 then -Rat.floor (-q + 1 / 2) else Rat.floor (q + 1 / 2)

/-- `*std::max_element(l.begin(), l.end())` (meaningful for nonempty `l`). -/
def listMax (l : List ℚ) : ℚ := l.foldl cppMax (l.headD 0)

/-== bit flipping algorithms (bf_decode, lines 81-225) ==-/

/-- WBF/MWBF weight `w[i] = min_{j in K[i]} |in[j]|`, accumulated from
`DBL_MAX` during the first iteration's syndrome loop (lines 119-120). -/
def wbfW (H : CtrlMat) (inp : List ℚ) (i : Nat) : ℚ :=
  ((Krow H i).map (fun j => cppAbs (nthQ inp j))).foldl cppMin doubleMax

/-- IMWBF per-edge weight `w[i*n+j] = min_{jp in K[i], jp != j} |in[jp]|`,
accumulated from `DBL_MAX` during the first iteration (lines 152-162). -/
def imwbfW (H : CtrlMat) (inp : List ℚ) (i j : Nat) : ℚ :=
  (((Krow H i).filter (fun jp => jp != j)).map
    (fun jp => cppAbs (nthQ inp jp))).foldl cppMin doubleMax

/-- Bit-flipping decision metric `e[j]` (lines 144-173): initialized to
`-alpha * |in[j]|` when `modified`, else 0, then accumulated over `i in N[j]`
with the per-variant term. -/
def bfE (H : CtrlMat) (alpha : ℚ) (inp : List ℚ)
    (weighted modified improved : Bool) (s : Nat → Nat) (j : Nat) : ℚ :=
  (Ncol H j).foldl (fun acc i =>
      if improved then acc + (2 * (s i : ℚ) - 1) * imwbfW H inp i j
      else if modified then acc + (2 * (s i : ℚ) - 1) * wbfW H inp i
      else if weighted then acc + (2 * (s i : ℚ) - 1) * wbfW H inp i
      else acc + (s i : ℚ))
    (if modified then -alpha * cppAbs (nthQ inp j) else 0)

/-- `T_max = *std::max_element(e.begin(), e.end())` (line 179). -/
def bfT (H : CtrlMat) (alpha : ℚ) (inp : List ℚ)
    (weighted modified improved : Bool) (s : Nat → Nat) : ℚ :=
  listMax ((List.range H.n).map (bfE H alpha inp weighted modified improved s))

/-- Membership of column `j` in the flip set (lines 181-189): epsilon
comparison against the maximum for the weighted variants, exact equality
for plain BF. -/
def bfFlipCond (H : CtrlMat) (alpha : ℚ) (inp : List ℚ)
    (weighted modified improved : Bool) (s : Nat → Nat) (j : Nat) : Bool :=
  if weighted then
    decide (cppAbs (bfE H alpha inp weighted modified improved s j -
             bfT H alpha inp weighted modified improved s) < EPSILON_FLIP)
  else
    decide (bfE H alpha inp weighted modified improved s j =
            bfT H alpha inp weighted modified improved s)

/-- One flip pass: `for (int index : to_flip) out[index] ^= 1`
(lines 194-195); columns outside the flip set are unchanged. -/
def bfFlipStep (H : CtrlMat) (alpha : ℚ) (inp : List ℚ)
    (weighted modified improved : Bool) (out : List Nat) : List Nat :=
  (List.range H.n).map (fun j =>
    if bfFlipCond H alpha inp weighted modified improved (syndrome H out) j
    then nth out j ^^^ 1 else nth out j)

/-- The iteration loop of `bf_decode` (lines 111-199), fuel-indexed by the
remaining iterations: check the syndrome, return success on all-clear,
otherwise flip and continue; return failure when the budget is exhausted. -/
def bfLoop (H : CtrlMat) (alpha : ℚ) (inp : List ℚ)
    (weighted modified improved : Bool) : Nat → List Nat → Bool × List Nat
  | 0, out => (false, out)
  | Nat.succ fuel, out =>
    if isCw H (bfSyndromeRows H) out then (true, out)
    else bfLoop H alpha inp weighted modified improved fuel
      (bfFlipStep H alpha inp weighted modified improved out)

/-- `bf_decode` (lines 81-205): hard-decide, then iterate. -/
def bf_decode (H : CtrlMat) (max_iter : Nat) (alpha : ℚ) (inp : List ℚ)
    (weighted modified improved : Bool) : Bool × List Nat :=
  bfLoop H alpha inp weighted modified improved max_iter (hardDecision inp)

/-- `BF::_decode` (line 207). -/
def BF_decode (H : CtrlMat) (max_iter : Nat) (inp : List ℚ) : Bool × List Nat :=
  bf_decode H max_iter 0 inp false false false

/-- `WBF::_decode` (line 212). -/
def WBF_decode (H : CtrlMat) (max_iter : Nat) (inp : List ℚ) : Bool × List Nat :=
  bf_decode H max_iter 0 inp true false false

/-- `MWBF::_decode` (line 217). -/
def MWBF_decode (H : CtrlMat) (max_iter : Nat) (alpha : ℚ) (inp : List ℚ) :
    Bool × List Nat :=
  bf_decode H max_iter alpha inp true true false

/-- `IMWBF::_decode` (line 222). -/
def IMWBF_decode (H : CtrlMat) (max_iter : Nat) (alpha : ℚ) (inp : List ℚ) :
    Bool × List Nat :=
  bf_decode H max_iter alpha inp true true true

/-== MLG variants (lines 228-421) ==-/

/-- OneStepMLG's `e[j] = sum_{i in N[j]} s[i]` (lines 272-274). -/
def oneStepE (H : CtrlMat) (out : List Nat) (j : Nat) : Nat :=
  ((Ncol H j).map (fun i => syndrome H out i)).foldl (· + ·) 0

/-- `OneStepMLG::_decode` (lines 230-285): hard-decide, one syndrome pass
over rows `[0, H.n)`, early success if clear, otherwise one correction pass
flipping `out[j]` iff `e[j] > gamma_half` where
`gamma_half = H.N[0].size() / 2` (line 237); returns true in both branches. -/
def oneStepMLG_decode (H : CtrlMat) (inp : List ℚ) : Bool × List Nat :=
  let gamma_half := (Ncol H 0).length / 2
  let out := hardDecision inp
  if isCw H (oneStepMLGSyndromeRows H) out then (true, out)
  else
    (true, (List.range H.n).map (fun j =>
      if gamma_half < oneStepE H out j then nth out j ^^^ 1 else nth out j))

/-- Saturation ceiling (line 305): `soft ? (1 << (x - 1)) - 1 : gamma` with
`x = 3` and `gamma = H.N[0].size()` (line 302). -/
def mlgMaxB (soft : Bool) (H : CtrlMat) : ℚ :=
  if soft then 3 else ((Ncol H 0).length : ℚ)

/-- Saturation floor `min = -max` (line 306). -/
def mlgMinB (soft : Bool) (H : CtrlMat) : ℚ := -mlgMaxB soft H

/-- Initial reliability register and hard decision (lines 315-323): soft
variants round `in[j] * max` and clamp it, the hard variant loads
`out[j] ? min : max`. -/
def mlgInit (H : CtrlMat) (inp : List ℚ) (soft : Bool) : List ℚ × List Nat :=
  ((List.range H.n).map (fun j =>
      if soft then
        clamp ((roundQ (nthQ inp j * mlgMaxB soft H) : ℚ))
          (mlgMinB soft H) (mlgMaxB soft H)
      else if nthQ inp j < 0 then mlgMinB soft H else mlgMaxB soft H),
   hardDecision inp)

/-- The per-edge minimum `wij_min = min_{jp in K[i], jp != j} |r[jp]|`
computed (from `INT_MAX`) by the adaptive weight loop (lines 332-339). -/
def adaptive_w_computed (H : CtrlMat) (r : List ℚ) (i j : Nat) : ℚ :=
  (((Krow H i).filter (fun jp => jp != j)).map
    (fun jp => cppAbs (nthQ r jp))).foldl cppMin intMax

/-- The weight the adaptive loop actually stores: `w[i * H.n + j] = min;`
(line 341) — the saturation floor, for every edge, discarding `wij_min`. -/
def adaptive_w_stored (H : CtrlMat) (soft : Bool) (_i _j : Nat) : ℚ :=
  mlgMinB soft H

/-- Iterative MLG decision metric `e[j]` (lines 373-382): the adaptive
variant scales each `2 * (s[i] ^ out[j]) - 1` term by the stored weight. -/
def mlgE (H : CtrlMat) (soft adaptive : Bool) (s : Nat → Nat)
    (out : List Nat) (j : Nat) : ℚ :=
  (Ncol H j).foldl (fun acc i =>
      if adaptive then
        acc + (2 * ((s i ^^^ nth out j : Nat) : ℚ) - 1) *
          adaptive_w_stored H soft i j
      else acc + (2 * ((s i ^^^ nth out j : Nat) : ℚ) - 1))
    0

/-- One iterative MLG register/decision update (lines 387-395): subtract
(`alpha`-scaled when adaptive) `e[j]`, clamp into `[min, max]`, and re-derive
`out[j] = r[j] < 0 ? 1 : 0`. -/
def mlgStep (H : CtrlMat) (alpha : ℚ) (soft adaptive : Bool)
    (st : List ℚ × List Nat) : List ℚ × List Nat :=
  let r' := (List.range H.n).map (fun j =>
    if adaptive then
      clamp (nthQ st.1 j - alpha * mlgE H soft adaptive (syndrome H st.2) st.2 j)
        (mlgMinB soft H) (mlgMaxB soft H)
    else
      clamp (nthQ st.1 j - mlgE H soft adaptive (syndrome H st.2) st.2 j)
        (mlgMinB soft H) (mlgMaxB soft H))
  (r', r'.map (fun v => if v < 0 then 1 else 0))

/-- The iterative MLG loop (lines 346-400), fuel-indexed: syndrome check over
rows `[0, H.n)`, success on all-clear, otherwise update and continue. -/
def mlgLoop (H : CtrlMat) (alpha : ℚ) (soft adaptive : Bool) :
    Nat → List ℚ × List Nat → Bool × List Nat
  | 0, st => (false, st.2)
  | Nat.succ fuel, st =>
    if isCw H (mlgSyndromeRows H) st.2 then (true, st.2)
    else mlgLoop H alpha soft adaptive fuel (mlgStep H alpha soft adaptive st)

/-- `iterative_mlg_decode` (lines 287-406). -/
def iterative_mlg_decode (H : CtrlMat) (max_iter : Nat) (alpha : ℚ)
    (inp : List ℚ) (soft adaptive : Bool) : Bool × List Nat :=
  mlgLoop H alpha soft adaptive max_iter (mlgInit H inp soft)

/-- Register contents after `t` unconditional applications of the iteration
update, starting from the initialization; the decoder's reachable states
(it stops stepping once the syndrome clears) are a subset of these. -/
def mlgStateAfter (H : CtrlMat) (alpha : ℚ) (soft adaptive : Bool)
    (inp : List ℚ) (t : Nat) : List ℚ × List Nat :=
  (mlgStep H alpha soft adaptive)^[t] (mlgInit H inp soft)

/-- `HardMLG::_decode` (line 408). -/
def HardMLG_decode (H : CtrlMat) (max_iter : Nat) (inp : List ℚ) :
    Bool × List Nat :=
  iterative_mlg_decode H max_iter 0 inp false false

/-- `SoftMLG::_decode` (line 413). -/
def SoftMLG_decode (H : CtrlMat) (max_iter : Nat) (inp : List ℚ) :
    Bool × List Nat :=
  iterative_mlg_decode H max_iter 0 inp true false

/-- `AdaptiveSoftMLG::_decode` (line 418). -/
def AdaptiveSoftMLG_decode (H : CtrlMat) (max_iter : Nat) (alpha : ℚ)
    (inp : List ℚ) : Bool × List Nat :=
  iterative_mlg_decode H max_iter alpha inp true true

/-== Min Sum variants (lines 424-584) ==-/

/-- One step of the two-minima/sign scan (lines 496-507): compare `|q|`
against the running `min1`/`min2` and fold the sign bit. -/
def rowScanStep (acc : ℚ × ℚ × Nat) (q : ℚ) : ℚ × ℚ × Nat :=
  let qa := cppAbs q
  let p :=
    if qa < acc.1 then (qa, acc.1)
    else if qa < acc.2.1 then (acc.1, qa)
    else (acc.1, acc.2.1)
  (p.1, p.2, if q < 0 then acc.2.2 ^^^ 1 else acc.2.2)

/-- Per-row summary (lines 487-509): fold the scan over the row's `Q`
entries, starting from `(DBL_MAX, DBL_MAX, 0)`. -/
def rowScan (qs : List ℚ) : ℚ × ℚ × Nat :=
  qs.foldl rowScanStep (doubleMax, doubleMax, 0)

/-- Row summary of row `i` of the message matrix `Q`. -/
def msRow (H : CtrlMat) (Q : Nat → Nat → ℚ) (i : Nat) : ℚ × ℚ × Nat :=
  rowScan ((Krow H i).map (fun j => Q i j))

/-- Magnitude selection (line 519):
`r = q_abs == min1[i] ? min2[i] : min1[i]`. -/
def msSelect (m1 m2 qa : ℚ) : ℚ := if qa = m1 then m2 else m1

/-- Check-to-variable value (lines 515-529): plain, normalized (`1/alpha`
scaling) or offset (`max(r - alpha, 0)`) magnitude, negated when
`sgn[i] ^ (q < 0.0)` is set. -/
def msCheckToVar (normalized offset : Bool) (alpha m1 m2 : ℚ) (sg : Nat)
    (q : ℚ) : ℚ :=
  let r := msSelect m1 m2 (cppAbs q)
  if normalized then
    (1 / alpha) * (if (sg ^^^ (if q < 0 then 1 else 0)) == 1 then -r else r)
  else if offset then
    (if (sg ^^^ (if q < 0 then 1 else 0)) == 1 then -cppMax (r - alpha) 0
     else cppMax (r - alpha) 0)
  else (if (sg ^^^ (if q < 0 then 1 else 0)) == 1 then -r else r)

/-- `R[i * n + j]` of the current iteration. -/
def msRval (H : CtrlMat) (normalized offset : Bool) (alpha : ℚ)
    (Q : Nat → Nat → ℚ) (i j : Nat) : ℚ :=
  msCheckToVar normalized offset alpha (msRow H Q i).1 (msRow H Q i).2.1
    (msRow H Q i).2.2 (Q i j)

/-- Extrinsic sum `Le = sum_{i in N[j]} R[i * n + j]` (lines 537-539). -/
def msLe (H : CtrlMat) (normalized offset : Bool) (alpha : ℚ)
    (Q : Nat → Nat → ℚ) (j : Nat) : ℚ :=
  ((Ncol H j).map (fun i => msRval H normalized offset alpha Q i j)).foldl
    (· + ·) 0

/-- One min-sum iteration (lines 487-545): new hard decisions
`out[j] = in[j] + Le < 0 ? 1 : 0` and new messages
`Q[i * n + j] = in[j] + Le - R[i * n + j]` at the positions `i in N[j]`
the variable pass writes (other positions keep their previous value). -/
def msStep (H : CtrlMat) (normalized offset : Bool) (alpha : ℚ) (inp : List ℚ)
    (Q : Nat → Nat → ℚ) : (Nat → Nat → ℚ) × List Nat :=
  ((fun i j =>
      if (Ncol H j).contains i then
        nthQ inp j + msLe H normalized offset alpha Q j -
          msRval H normalized offset alpha Q i j
      else Q i j),
   (List.range H.n).map (fun j =>
      if nthQ inp j + msLe H normalized offset alpha Q j < 0 then 1 else 0))

/-- The min-sum iteration loop (lines 481-563), fuel-indexed: run one
iteration, return success if the new hard decision is a codeword, else
continue; failure with the last `out` once the budget is exhausted. -/
def msLoop (H : CtrlMat) (normalized offset : Bool) (alpha : ℚ)
    (inp : List ℚ) : Nat → (Nat → Nat → ℚ) × List Nat → Bool × List Nat
  | 0, st => (false, st.2)
  | Nat.succ fuel, st =>
    let st' := msStep H normalized offset alpha inp st.1
    if hard_decide st'.2 H then (true, st'.2)
    else msLoop H normalized offset alpha inp fuel st'

/-- `min_sum_decode` (lines 438-569): the `normalized && offset` guard throws
`std::invalid_argument` at the top of the call (lines 441-442, embedded as
`Except.error`); otherwise hard-decide, early-exit on an immediate codeword,
and iterate.  At iteration 0 the source writes `Q[i * n + j] = in[j]` at
every edge before reading it (line 493-494), so the loop starts from the
message matrix `fun i j => in[j]`. -/
def min_sum_decode (H : CtrlMat) (max_iter : Nat) (alpha : ℚ) (inp : List ℚ)
    (normalized offset : Bool) : Except String (Bool × List Nat) :=
  if normalized && offset then
    Except.error "normalized + offset min sum not supported"
  else
    let out := hardDecision inp
    if hard_decide out H then Except.ok (true, out)
    else
      Except.ok (msLoop H normalized offset alpha inp max_iter
        ((fun _i j => nthQ inp j), out))

/-- `MinSum::_decode` (line 571). -/
def MinSum_decode (H : CtrlMat) (max_iter : Nat) (inp : List ℚ) :
    Except String (Bool × List Nat) :=
  min_sum_decode H max_iter 0 inp false false

/-- `NormalizedMinSum::_decode` (line 576). -/
def NormalizedMinSum_decode (H : CtrlMat) (max_iter : Nat) (alpha : ℚ)
    (inp : List ℚ) : Except String (Bool × List Nat) :=
  min_sum_decode H max_iter alpha inp true false

/-- `OffsetMinSum::_decode` (line 581). -/
def OffsetMinSum_decode (H : CtrlMat) (max_iter : Nat) (alpha : ℚ)
    (inp : List ℚ) : Except String (Bool × List Nat) :=
  min_sum_decode H max_iter alpha inp false true

/-- All entries of a bit vector are 0 or 1. -/
def BitsLE1 (out : List Nat) : Prop := ∀ b ∈ out, b ≤ 1

instance (out : List Nat) : Decidable (BitsLE1 out) :=
  List.decidableBAll _ out

/-- Example control matrix with `H = [1 1]` (n = 2, k = 1): row adjacency
`K[0] = [0, 1]`, column adjacency `N[0] = N[1] = [0]`. -/
def Hex2 : CtrlMat := ⟨2, 1, [[0, 1]], [[0], [0]]⟩

/-- Example control matrix with `H = [1 1 1]` (n = 3, k = 1). -/
def Hex3 : CtrlMat := ⟨3, 1, [[0, 1, 2]], [[0], [0], [0]]⟩

/-- Example square control matrix (n = k = 2) whose two rows are both
`[1 1]`; row weight and column weight coincide (both 2). -/
def Hcirc : CtrlMat := ⟨2, 2, [[0, 1], [0, 1]], [[0, 1], [0, 1]]⟩

/-- Example message matrix whose single row carries `(2, -2, 5)` — two
entries tie for the smallest magnitude. -/
def Qex : Nat → Nat → ℚ := fun _i j => nthQ [2, -2, 5] j

/-- Invariant of the two-minima scan relative to the multiset `S` of
magnitudes already processed: `m1` is the smallest member (sentinel
`DBL_MAX` while `S` is empty), `m2` the smallest of `S` minus one
occurrence of `m1` (sentinel `DBL_MAX` while `S` has fewer than two
members). -/
def ScanInv (S : Multiset ℚ) (m1 m2 : ℚ) : Prop :=
  (∀ x ∈ S, x ≤ doubleMax) ∧
  m1 ≤ m2 ∧
  (S = 0 → m1 = doubleMax ∧ m2 = doubleMax) ∧
  (Multiset.card S = 1 → m2 = doubleMax) ∧
  (0 < Multiset.card S → m1 ∈ S ∧ ∀ x ∈ S, m1 ≤ x) ∧
  (2 ≤ Multiset.card S → m2 ∈ S.erase m1 ∧ ∀ x ∈ S.erase m1, m2 ≤ x)

/-== helper lemmas ==-/

theorem xor_le_one {a b : Nat} (ha : a ≤ 1) (hb : b ≤ 1) : a ^^^ b ≤ 1 := by
  interval_cases a <;> interval_cases b <;> decide

theorem xor_one_ne (x : Nat) : x ^^^ 1 ≠ x := by
  intro h
  have h2 : x ^^^ (x ^^^ 1) = x ^^^ x := congrArg (fun y => x ^^^ y) h
  rw [← Nat.xor_assoc, Nat.xor_self] at h2
  simp at h2

theorem nth_le_one {out : List Nat} (h : BitsLE1 out) (j : Nat) :
    nth out j ≤ 1 := by
  unfold nth
  rw [List.getD_eq_getElem?_getD]
  rcases hv : out[j]? with _ | b
  · simp
  · simpa using h b (List.getElem?_mem hv)

theorem syndrome_le_one {H : CtrlMat} {out : List Nat} (h : BitsLE1 out)
    (i : Nat) : syndrome H out i ≤ 1 := by
  unfold syndrome
  generalize Krow H i = l
  suffices hgen : ∀ (l : List Nat) (acc : Nat), acc ≤ 1 →
      l.foldl (fun s j => s ^^^ nth out j) acc ≤ 1 from hgen l 0 (by omega)
  intro l
  induction l with
  | nil => intro acc hacc; simpa using hacc
  | cons j t ih =>
    intro acc hacc
    exact ih _ (xor_le_one hacc (nth_le_one h j))

theorem isCw_iff {H : CtrlMat} {rows : List Nat} {out : List Nat}
    (h : BitsLE1 out) :
    isCw H rows out = true ↔ ∀ i ∈ rows, syndrome H out i = 0 := by
  unfold isCw
  rw [List.all_eq_true]
  constructor
  · intro hall i hi
    have h1 := hall i hi
    have h2 := syndrome_le_one (H := H) h i
    rw [bne_iff_ne] at h1
    omega
  · intro hall i hi
    rw [bne_iff_ne]
    rw [hall i hi]
    omega

theorem nth_map_range (f : Nat → Nat) (n j : Nat) :
    nth ((List.range n).map f) j = if j < n then f j else 0 := by
  unfold nth
  rw [List.getD_eq_getElem?_getD, List.getElem?_map]
  by_cases hj : j < n
  · rw [List.getElem?_range hj]; simp [hj]
  · rw [List.getElem?_eq_none (by simpa using Nat.le_of_not_lt hj)]
    simp [hj]

theorem nthQ_map_range (f : Nat → ℚ) (n j : Nat) :
    nthQ ((List.range n).map f) j = if j < n then f j else 0 := by
  unfold nthQ
  rw [List.getD_eq_getElem?_getD, List.getElem?_map]
  by_cases hj : j < n
  · rw [List.getElem?_range hj]; simp [hj]
  · rw [List.getElem?_eq_none (by simpa using Nat.le_of_not_lt hj)]
    simp [hj]

theorem map_range_nth_self {out : List Nat} {n : Nat} (h : out.length = n) :
    (List.range n).map (fun j => nth out j) = out := by
  apply List.ext_getElem
  · simpa using h.symm
  · intro i h1 h2
    have hi : i < n := by simpa using h1
    simp only [List.getElem_map, List.getElem_range]
    unfold nth
    rw [List.getD_eq_getElem?_getD, List.getElem?_eq_getElem h2]
    rfl

theorem hardDecision_length (inp : List ℚ) :
    (hardDecision inp).length = inp.length := by
  unfold hardDecision; simp

theorem bits_hardDecision (inp : List ℚ) : BitsLE1 (hardDecision inp) := by
  intro b hb
  unfold hardDecision at hb
  rcases List.mem_map.mp hb with ⟨x, _, hx⟩
  by_cases hneg : x < 0 <;> simp [hneg] at hx <;> omega

theorem bits_map_if01 (n : Nat) (c : Nat → Prop) [DecidablePred c] :
    BitsLE1 ((List.range n).map (fun j => if c j then 1 else 0)) := by
  intro b hb
  rcases List.mem_map.mp hb with ⟨x, _, hx⟩
  by_cases hc : c x <;> simp [hc] at hx <;> omega

theorem bits_bfFlipStep (H : CtrlMat) (alpha : ℚ) (inp : List ℚ)
    (weighted modified improved : Bool) {out : List Nat} (h : BitsLE1 out) :
    BitsLE1 (bfFlipStep H alpha inp weighted modified improved out) := by
  intro b hb
  unfold bfFlipStep at hb
  rcases List.mem_map.mp hb with ⟨x, _, hx⟩
  by_cases hc :
      bfFlipCond H alpha inp weighted modified improved (syndrome H out) x
  · rw [if_pos hc] at hx
    exact hx ▸ xor_le_one (nth_le_one h x) (by omega)
  · rw [if_neg hc] at hx
    exact hx ▸ nth_le_one h x

theorem le_cppMax_left (a b : ℚ) : a ≤ cppMax a b := by
  unfold cppMax
  by_cases h : a < b
  · rw [if_pos h]; exact le_of_lt h
  · rw [if_neg h]

theorem le_cppMax_right (a b : ℚ) : b ≤ cppMax a b := by
  unfold cppMax
  by_cases h : a < b
  · rw [if_pos h]
  · rw [if_neg h]; exact le_of_not_lt h

theorem cppMax_cases (a b : ℚ) : cppMax a b = a ∨ cppMax a b = b := by
  unfold cppMax
  by_cases h : a < b
  · exact Or.inr (if_pos h)
  · exact Or.inl (if_neg h)

theorem cppMin_le_right (a b : ℚ) : cppMin a b ≤ b := by
  unfold cppMin
  by_cases h : b < a
  · rw [if_pos h]
  · rw [if_neg h]; exact le_of_not_lt h

theorem le_cppMin {a b c : ℚ} (h1 : c ≤ a) (h2 : c ≤ b) : c ≤ cppMin a b := by
  unfold cppMin
  by_cases h : b < a
  · rw [if_pos h]; exact h2
  · rw [if_neg h]; exact h1

theorem clamp_bounds {lo hi : ℚ} (v : ℚ) (h : lo ≤ hi) :
    lo ≤ clamp v lo hi ∧ clamp v lo hi ≤ hi := by
  unfold clamp
  exact ⟨le_cppMin (le_cppMax_right v lo) h, cppMin_le_right _ _⟩

theorem foldl_max_init_le : ∀ (l : List ℚ) (a : ℚ), a ≤ l.foldl cppMax a := by
  intro l
  induction l with
  | nil => intro a; simp
  | cons x t ih =>
    intro a
    exact le_trans (le_cppMax_left a x) (ih (cppMax a x))

theorem foldl_max_mem_le :
    ∀ (l : List ℚ) (a x : ℚ), x ∈ l → x ≤ l.foldl cppMax a := by
  intro l
  induction l with
  | nil => intro a x hx; simp at hx
  | cons y t ih =>
    intro a x hx
    rcases List.mem_cons.mp hx with hx | hx
    · subst hx
      rw [List.foldl_cons]
      exact le_trans (le_cppMax_right a x) (foldl_max_init_le t (cppMax a x))
    · rw [List.foldl_cons]
      exact ih (cppMax a y) x hx

theorem foldl_max_cases : ∀ (l : List ℚ) (a : ℚ),
    l.foldl cppMax a = a ∨ l.foldl cppMax a ∈ l := by
  intro l
  induction l with
  | nil => intro a; simp
  | cons y t ih =>
    intro a
    rcases ih (cppMax a y) with h | h
    · rcases cppMax_cases a y with he | he
      · exact Or.inl (by rw [List.foldl_cons, h, he])
      · exact Or.inr (by rw [List.foldl_cons, h, he]; exact List.mem_cons_self y t)
    · exact Or.inr (List.mem_cons_of_mem y h)

theorem listMax_mem {l : List ℚ} (h : l ≠ []) : listMax l ∈ l := by
  unfold listMax
  rcases foldl_max_cases l (l.headD 0) with hc | hc
  · rw [hc]
    rcases l with _ | ⟨x, t⟩
    · exact absurd rfl h
    · exact List.mem_cons_self x t
  · exact hc

theorem listMax_le {l : List ℚ} (x : ℚ) (hx : x ∈ l) : x ≤ listMax l :=
  foldl_max_mem_le l (l.headD 0) x hx

theorem bfLoop_true {H : CtrlMat} {alpha : ℚ} {inp : List ℚ}
    {weighted modified improved : Bool} :
    ∀ {fuel : Nat} {out res : List Nat}, BitsLE1 out →
      bfLoop H alpha inp weighted modified improved fuel out = (true, res) →
      BitsLE1 res ∧ isCw H (bfSyndromeRows H) res = true := by
  intro fuel
  induction fuel with
  | zero => intro out res _ hrun; simp [bfLoop] at hrun
  | succ fuel ih =>
    intro out res hbits hrun
    unfold bfLoop at hrun
    by_cases hcw : isCw H (bfSyndromeRows H) out
    · rw [if_pos hcw] at hrun
      obtain ⟨-, rfl⟩ : true = true ∧ out = res := by
        simpa [Prod.ext_iff] using hrun
      exact ⟨hbits, hcw⟩
    · rw [if_neg hcw] at hrun
      exact ih (bits_bfFlipStep H alpha inp weighted modified improved hbits)
        hrun

theorem bits_mlgStep (H : CtrlMat) (alpha : ℚ) (soft adaptive : Bool)
    (st : List ℚ × List Nat) :
    BitsLE1 (mlgStep H alpha soft adaptive st).2 := by
  intro b hb
  unfold mlgStep at hb
  simp only [List.map_map] at hb
  rcases List.mem_map.mp hb with ⟨x, _, hx⟩
  revert hx
  by_cases hc : (if adaptive then
        clamp (nthQ st.1 x - alpha * mlgE H soft adaptive (syndrome H st.2) st.2 x)
          (mlgMinB soft H) (mlgMaxB soft H)
      else
        clamp (nthQ st.1 x - mlgE H soft adaptive (syndrome H st.2) st.2 x)
          (mlgMinB soft H) (mlgMaxB soft H)) < 0 <;>
    intro hx <;> simp [hc] at hx <;> omega

theorem mlgLoop_true {H : CtrlMat} {alpha : ℚ} {soft adaptive : Bool} :
    ∀ {fuel : Nat} {st : List ℚ × List Nat} {res : List Nat}, BitsLE1 st.2 →
      mlgLoop H alpha soft adaptive fuel st = (true, res) →
      BitsLE1 res ∧ isCw H (mlgSyndromeRows H) res = true := by
  intro fuel
  induction fuel with
  | zero => intro st res _ hrun; simp [mlgLoop] at hrun
  | succ fuel ih =>
    intro st res hbits hrun
    unfold mlgLoop at hrun
    by_cases hcw : isCw H (mlgSyndromeRows H) st.2
    · rw [if_pos hcw] at hrun
      obtain ⟨-, rfl⟩ : true = true ∧ st.2 = res := by
        simpa [Prod.ext_iff] using hrun
      exact ⟨hbits, hcw⟩
    · rw [if_neg hcw] at hrun
      exact ih (bits_mlgStep H alpha soft adaptive st) hrun

theorem bits_msStep (H : CtrlMat) (normalized offset : Bool) (alpha : ℚ)
    (inp : List ℚ) (Q : Nat → Nat → ℚ) :
    BitsLE1 (msStep H normalized offset alpha inp Q).2 := by
  intro b hb
  unfold msStep at hb
  rcases List.mem_map.mp hb with ⟨x, _, hx⟩
  by_cases hc : nthQ inp x + msLe H normalized offset alpha Q x < 0 <;>
    simp [hc] at hx <;> omega

theorem msLoop_true {H : CtrlMat} {normalized offset : Bool} {alpha : ℚ}
    {inp : List ℚ} :
    ∀ {fuel : Nat} {st : (Nat → Nat → ℚ) × List Nat} {res : List Nat},
      msLoop H normalized offset alpha inp fuel st = (true, res) →
      BitsLE1 res ∧ hard_decide res H = true := by
  intro fuel
  induction fuel with
  | zero => intro st res hrun; simp [msLoop] at hrun
  | succ fuel ih =>
    intro st res hrun
    unfold msLoop at hrun
    by_cases hcw :
        hard_decide (msStep H normalized offset alpha inp st.1).2 H
    · rw [if_pos hcw] at hrun
      obtain ⟨-, rfl⟩ :
          true = true ∧ (msStep H normalized offset alpha inp st.1).2 = res := by
        simpa [Prod.ext_iff] using hrun
      exact ⟨bits_msStep H normalized offset alpha inp st.1, hcw⟩
    · rw [if_neg hcw] at hrun
      exact ih hrun

theorem foldl_add_acc (l : List Nat) :
    ∀ (f : Nat → Nat) (acc : Nat), (∀ i ∈ l, f i = 0) →
      (l.map f).foldl (· + ·) acc = acc := by
  induction l with
  | nil => intro f acc _; rfl
  | cons i t ih =>
    intro f acc h
    rw [List.map_cons, List.foldl_cons, h i (List.mem_cons_self i t)]
    exact ih f acc (fun x hx => h x (List.mem_cons_of_mem i hx))

theorem mlgMinB_le_mlgMaxB (soft : Bool) (H : CtrlMat) :
    mlgMinB soft H ≤ mlgMaxB soft H := by
  unfold mlgMinB mlgMaxB
  cases soft
  · simp only [Bool.false_eq_true, if_false]
    exact neg_le_self (Nat.cast_nonneg _)
  · norm_num

theorem bfE_alpha0 (H : CtrlMat) (inp : List ℚ) :
    bfE H 0 inp true true false = bfE H 0 inp true false false := by
  funext s j
  unfold bfE
  norm_num

theorem bfFlipStep_alpha0 (H : CtrlMat) (inp : List ℚ) :
    bfFlipStep H 0 inp true true false = bfFlipStep H 0 inp true false false := by
  have hE := bfE_alpha0 H inp
  funext out
  unfold bfFlipStep bfFlipCond bfT
  rw [hE]

theorem bfLoop_alpha0 (H : CtrlMat) (inp : List ℚ) :
    ∀ (fuel : Nat) (out : List Nat),
      bfLoop H 0 inp true true false fuel out =
      bfLoop H 0 inp true false false fuel out := by
  intro fuel
  induction fuel with
  | zero => intro out; rfl
  | succ fuel ih =>
    intro out
    unfold bfLoop
    rw [bfFlipStep_alpha0, ih]

/-- C10 (confirmed): for every control matrix, iteration budget and input,
MWBF with `alpha = 0` returns exactly the same (success flag, output vector)
pair as WBF: the only difference between the two paths through `bf_decode`
is the `-alpha * |in[j]|` initialization of `e[j]`, which vanishes at
`alpha = 0`. -/
theorem mwbf_alpha0_eq_wbf :
    ∀ (H : CtrlMat) (max_iter : Nat) (inp : List ℚ),
      MWBF_decode H max_iter 0 inp = WBF_decode H max_iter inp := by
  intro H mi inp
  unfold MWBF_decode WBF_decode bf_decode
  exact bfLoop_alpha0 H inp mi (hardDecision inp)

/-- C3 (counterexample): with `max_iter = 0` and the all-positive input
`[1, 1]` on `Hex2`, the hard decision `[0, 0]` already satisfies every
parity check, yet BF returns `(false, [0, 0])` — the claim demands
`(true, [0, 0])`.  The BF and iterative-MLG loops perform their syndrome
check only inside the iteration loop, which a zero budget never enters. -/
theorem maxiter0_counterexample :
    BF_decode Hex2 0 [1, 1] = (false, hardDecision [1, 1]) ∧
    isCw Hex2 (bfSyndromeRows Hex2) (hardDecision [1, 1]) = true := by
  decide

/-- C3 (corrected): with `max_iter = 0`, the bit-flipping and iterative MLG
decoders return `(false, hard-decision)` unconditionally (their syndrome
check lives inside the never-entered loop), while the min-sum family —
whose hard-decision check precedes the loop — returns
`(true, hard-decision)` iff the hard decision is a codeword and
`(false, hard-decision)` otherwise. -/
theorem maxiter0_behavior :
    (∀ (H : CtrlMat) (alpha : ℚ) (inp : List ℚ) (w m i : Bool),
        bf_decode H 0 alpha inp w m i = (false, hardDecision inp)) ∧
    (∀ (H : CtrlMat) (alpha : ℚ) (inp : List ℚ) (soft ad : Bool),
        iterative_mlg_decode H 0 alpha inp soft ad = (false, hardDecision inp)) ∧
    (∀ (H : CtrlMat) (alpha : ℚ) (inp : List ℚ) (nrm off : Bool),
        ¬(nrm = true ∧ off = true) →
        min_sum_decode H 0 alpha inp nrm off =
          if hard_decide (hardDecision inp) H then
            Except.ok (true, hardDecision inp)
          else Except.ok (false, hardDecision inp)) := by
  refine ⟨fun H a inp w m i => rfl, fun H a inp s ad => rfl, ?_⟩
  intro H a inp nrm off h
  have hno : (nrm && off) = false := by
    cases nrm <;> cases off <;> simp_all
  cases hcd : hard_decide (hardDecision inp) H <;>
    simp [min_sum_decode, hno, hcd, msLoop]

/-- C3 (witness): the min-sum branch of `maxiter0_behavior` evaluated on
`Hex2` with the all-positive input. -/
theorem maxiter0_behavior_witness :
    min_sum_decode Hex2 0 0 [1, 1] false false =
      (if hard_decide (hardDecision [1, 1]) Hex2 then
        Except.ok (true, hardDecision [1, 1])
      else Except.ok (false, hardDecision [1, 1])) :=
  maxiter0_behavior.2.2 Hex2 0 [1, 1] false false (by simp)

/-- C6 (counterexample): the `normalized && offset` rejection is raised by
the decode call itself — `min_sum_decode` invoked with both flags runs up
to its guard and only then reports the invalid configuration — refuting the
claim that the combination is rejected before any decode call is made. -/
theorem config_rejection_counterexample :
    min_sum_decode Hex2 1 1 [1, 1] true true =
      Except.error "normalized + offset min sum not supported" := rfl

/-- C6 (corrected): the invalid `normalized ∧ offset` combination is
rejected by the guard at the top of `min_sum_decode` on every decode call
(before any iteration runs), and every other flag combination — in
particular the three combinations the public MinSum, NormalizedMinSum and
OffsetMinSum entry points pass — always decodes to an `ok` result. -/
theorem config_rejection_at_decode :
    (∀ (H : CtrlMat) (max_iter : Nat) (alpha : ℚ) (inp : List ℚ),
        min_sum_decode H max_iter alpha inp true true =
          Except.error "normalized + offset min sum not supported") ∧
    (∀ (H : CtrlMat) (max_iter : Nat) (alpha : ℚ) (inp : List ℚ) (nrm off : Bool),
        ¬(nrm = true ∧ off = true) →
        ∃ r, min_sum_decode H max_iter alpha inp nrm off = Except.ok r) := by
  constructor
  · intro H mi a inp; rfl
  · intro H mi a inp nrm off h
    have hno : (nrm && off) = false := by cases nrm <;> cases off <;> simp_all
    unfold min_sum_decode
    rw [hno]
    simp only [Bool.false_eq_true, if_false]
    by_cases hcd : hard_decide (hardDecision inp) H
    · exact ⟨_, by rw [if_pos hcd]⟩
    · exact ⟨_, by rw [if_neg hcd]⟩

/-- C6 (witness): the second branch of `config_rejection_at_decode`
evaluated for the NormalizedMinSum flag combination on `Hex2`. -/
theorem config_rejection_witness :
    ∃ r, min_sum_decode Hex2 1 1 [1, 1] true false = Except.ok r :=
  config_rejection_at_decode.2 Hex2 1 1 [1, 1] true false (by simp)

/-- C2 (code bug): on `Hex2` with input `[1/2, 1/2]` the adaptive-soft-MLG
initialization yields registers `r = [2, 2]`; the per-edge minimum
`min_{jp in K[0], jp != 0} |r[jp]|` the weight loop computes is 2, but the
weight the source stores (`w[i * H.n + j] = min;`, line 341) is the
saturation floor -3 for every edge, and the iteration metric `e[j]`
consumes that stored -3. -/
theorem adaptive_weight_bug :
    adaptive_w_stored Hex2 true 0 0 = -3 ∧
    adaptive_w_computed Hex2 (mlgInit Hex2 [1/2, 1/2] true).1 0 0 = 2 ∧
    adaptive_w_stored Hex2 true 0 0 ≠
      adaptive_w_computed Hex2 (mlgInit Hex2 [1/2, 1/2] true).1 0 0 ∧
    mlgE Hex2 true true (syndrome Hex2 [1, 0]) [1, 0] 0 =
      (2 * ((1 ^^^ 1 : Nat) : ℚ) - 1) * adaptive_w_stored Hex2 true 0 0 := by
  decide

/-- C1 (counterexample): OneStepMLG on `Hex2` with input `[-1, 1]` returns
success and output `[0, 1]`, but row 0 < k of `H` has syndrome 1: the
one-step corrector reports success without its output satisfying the parity
checks. -/
theorem success_counterexample :
    oneStepMLG_decode Hex2 [-1, 1] = (true, [0, 1]) ∧
    syndrome Hex2 [0, 1] 0 ≠ 0 ∧ 0 < Hex2.k := by
  decide

/-- C1 (corrected): for every decoder variant EXCEPT OneStepMLG, a returned
success flag guarantees that the output satisfies every parity check of the
first k rows (for the iterative MLG variants provided `k ≤ n`, since their
syndrome check spans rows `[0, n)`). -/
theorem success_implies_parity :
    (∀ (H : CtrlMat) (mi : Nat) (a : ℚ) (inp : List ℚ) (w m im : Bool)
        (out : List Nat),
        bf_decode H mi a inp w m im = (true, out) →
        ∀ i < H.k, syndrome H out i = 0) ∧
    (∀ (H : CtrlMat) (mi : Nat) (a : ℚ) (inp : List ℚ) (soft ad : Bool)
        (out : List Nat), H.k ≤ H.n →
        iterative_mlg_decode H mi a inp soft ad = (true, out) →
        ∀ i < H.k, syndrome H out i = 0) ∧
    (∀ (H : CtrlMat) (mi : Nat) (a : ℚ) (inp : List ℚ) (nrm off : Bool)
        (out : List Nat),
        min_sum_decode H mi a inp nrm off = Except.ok (true, out) →
        ∀ i < H.k, syndrome H out i = 0) := by
  refine ⟨?_, ?_, ?_⟩
  · intro H mi a inp w m im out hrun i hi
    obtain ⟨hbits, hcw⟩ := bfLoop_true (bits_hardDecision inp) hrun
    exact (isCw_iff hbits).mp hcw i (List.mem_range.mpr hi)
  · intro H mi a inp soft ad out hkn hrun i hi
    obtain ⟨hbits, hcw⟩ := mlgLoop_true (bits_hardDecision inp) hrun
    exact (isCw_iff hbits).mp hcw i (List.mem_range.mpr (lt_of_lt_of_le hi hkn))
  · intro H mi a inp nrm off out hrun i hi
    unfold min_sum_decode at hrun
    by_cases hg : (nrm && off) = true
    · rw [if_pos hg] at hrun
      exact absurd hrun (by simp)
    · rw [if_neg hg] at hrun
      by_cases hcd : hard_decide (hardDecision inp) H
      · simp only [hcd, if_true, Except.ok.injEq, Prod.mk.injEq] at hrun
        rw [← hrun.2]
        exact (isCw_iff (bits_hardDecision inp)).mp hcd i (List.mem_range.mpr hi)
      · simp only [hcd, Bool.false_eq_true, if_false, Except.ok.injEq] at hrun
        obtain ⟨hbits, hcw⟩ := msLoop_true hrun
        exact (isCw_iff hbits).mp hcw i (List.mem_range.mpr hi)

/-- C1 (witness): the three branches of `success_implies_parity` applied to
successful decodes on concrete inputs. -/
theorem success_implies_parity_witness :
    syndrome Hex2 [0, 0] 0 = 0 ∧ syndrome Hcirc [1, 1] 0 = 0 ∧
      syndrome Hex3 [1, 1, 0] 0 = 0 :=
  ⟨success_implies_parity.1 Hex2 1 0 [1, 1] false false false [0, 0]
      (by decide) 0 (by decide),
   success_implies_parity.2.1 Hcirc 1 0 [-1, -1] false false [1, 1]
      (by decide) (by decide) 0 (by decide),
   success_implies_parity.2.2 Hex3 1 0 [-1, -1, 1] false false [1, 1, 0]
      (by rfl) 0 (by decide)⟩

/-- C4 (counterexample): on `Hex2` (k = 1 < n = 2) the MLG decoders allocate
their syndrome with length n (not k) and their syndrome loops touch row
index 1 ≥ k, so `K[i]` is accessed at a row index out of `[0, k)`. -/
theorem syndrome_shape_counterexample :
    mlgSyndromeLen Hex2 ≠ Hex2.k ∧ oneStepMLGSyndromeLen Hex2 ≠ Hex2.k ∧
    1 ∈ mlgSyndromeRows Hex2 ∧ ¬(1 < Hex2.k) ∧
    1 ∈ oneStepMLGSyndromeRows Hex2 := by
  decide

/-- C4 (corrected): the bit-flipping and min-sum decoders use a length-k
syndrome computed and tested exactly over rows `[0, k)`, but OneStepMLG and
the iterative MLG decoders allocate a length-n syndrome and scan rows
`[0, n)`; in each case the current output is declared a codeword iff every
scanned row's syndrome bit is zero. -/
theorem syndrome_shape :
    ∀ H : CtrlMat,
      bfSyndromeLen H = H.k ∧ bfSyndromeRows H = List.range H.k ∧
      minSumSyndromeRows H = List.range H.k ∧
      mlgSyndromeLen H = H.n ∧ mlgSyndromeRows H = List.range H.n ∧
      oneStepMLGSyndromeLen H = H.n ∧
      oneStepMLGSyndromeRows H = List.range H.n ∧
      (∀ (rows : List Nat) (out : List Nat), BitsLE1 out →
        (isCw H rows out = true ↔ ∀ i ∈ rows, syndrome H out i = 0)) := by
  intro H
  refine ⟨rfl, rfl, rfl, rfl, rfl, rfl, rfl, ?_⟩
  intro rows out hb
  exact isCw_iff hb

/-- C4 (witness): the codeword-iff-all-zero characterization of
`syndrome_shape` evaluated on `Hex2`. -/
theorem syndrome_shape_witness :
    isCw Hex2 (bfSyndromeRows Hex2) [0, 0] = true ↔
      ∀ i ∈ bfSyndromeRows Hex2, syndrome Hex2 [0, 0] i = 0 :=
  (syndrome_shape Hex2).2.2.2.2.2.2.2 (bfSyndromeRows Hex2) [0, 0] (by decide)

/-- C5 (confirmed): OneStepMLG always returns success, and its output is the
hard decision with `out[j]` flipped exactly where
`e[j] = sum_{i in N[j]} s[i]` exceeds `gamma / 2` (`gamma` the row weight
`|K[0]|`, equal by regularity to the column weight `|N[0]|` the source
reads).  The hypotheses record the CtrlMat well-formedness the source
assumes: input length n, column adjacency indices below n, and row weight
equal to column weight. -/
theorem onestep_mlg_always_true (H : CtrlMat) (inp : List ℚ)
    (hlen : inp.length = H.n)
    (hN : ∀ j < H.n, ∀ i ∈ Ncol H j, i < H.n)
    (hgam : (Ncol H 0).length = (Krow H 0).length) :
    oneStepMLG_decode H inp =
      (true, (List.range H.n).map (fun j =>
        if (Krow H 0).length / 2 < oneStepE H (hardDecision inp) j
        then nth (hardDecision inp) j ^^^ 1
        else nth (hardDecision inp) j)) := by
  simp only [oneStepMLG_decode]
  rw [← hgam]
  by_cases hcw : isCw H (oneStepMLGSyndromeRows H) (hardDecision inp)
  · rw [if_pos hcw]
    have hz := (isCw_iff (bits_hardDecision inp)).mp hcw
    have hmap : (List.range H.n).map (fun j =>
        if (Ncol H 0).length / 2 < oneStepE H (hardDecision inp) j
        then nth (hardDecision inp) j ^^^ 1 else nth (hardDecision inp) j) =
        (List.range H.n).map (fun j => nth (hardDecision inp) j) := by
      apply List.map_congr_left
      intro j hj
      have hj' := List.mem_range.mp hj
      have he : oneStepE H (hardDecision inp) j = 0 := by
        unfold oneStepE
        exact foldl_add_acc _ _ _
          (fun i hi => hz i (List.mem_range.mpr (hN j hj' i hi)))
      rw [he]
      simp
    rw [hmap, map_range_nth_self (by rw [hardDecision_length, hlen])]
  · rw [if_neg hcw]

/-- C5 (witness): `onestep_mlg_always_true` evaluated on the square matrix
`Hcirc` and the input `[-1, 1]`. -/
theorem onestep_mlg_always_true_witness :
    oneStepMLG_decode Hcirc [-1, 1] =
      (true, (List.range Hcirc.n).map (fun j =>
        if (Krow Hcirc 0).length / 2 < oneStepE Hcirc (hardDecision [-1, 1]) j
        then nth (hardDecision [-1, 1]) j ^^^ 1
        else nth (hardDecision [-1, 1]) j)) :=
  onestep_mlg_always_true Hcirc [-1, 1] (by decide) (by decide) (by decide)

/-- C9 (confirmed): after initialization (`t = 0`) and after every iteration
update (`t > 0`), every entry of the iterative-MLG reliability register lies
within the saturation bounds `[min, max]` (soft: `[-3, 3]`; hard:
`[-gamma, gamma]`). -/
theorem mlg_register_saturation :
    ∀ (H : CtrlMat) (alpha : ℚ) (soft adaptive : Bool) (inp : List ℚ)
      (t : Nat), ∀ v ∈ (mlgStateAfter H alpha soft adaptive inp t).1,
        mlgMinB soft H ≤ v ∧ v ≤ mlgMaxB soft H := by
  intro H a soft ad inp t
  have hle := mlgMinB_le_mlgMaxB soft H
  cases t with
  | zero =>
    intro v hv
    have hv1 : v ∈ (mlgInit H inp soft).1 := by
      simpa [mlgStateAfter] using hv
    simp only [mlgInit] at hv1
    rcases List.mem_map.mp hv1 with ⟨j, _, hj⟩
    split at hj
    · exact hj ▸ clamp_bounds _ hle
    · split at hj
      · exact hj ▸ ⟨le_refl _, hle⟩
      · exact hj ▸ ⟨hle, le_refl _⟩
  | succ t' =>
    intro v hv
    have hv1 : v ∈ (mlgStep H a soft ad
        ((mlgStep H a soft ad)^[t'] (mlgInit H inp soft))).1 := by
      simpa [mlgStateAfter, Function.iterate_succ_apply'] using hv
    simp only [mlgStep] at hv1
    rcases List.mem_map.mp hv1 with ⟨j, _, hj⟩
    split at hj
    · exact hj ▸ clamp_bounds _ hle
    · exact hj ▸ clamp_bounds _ hle

/-- C9 (witness): `mlg_register_saturation` applied to the register entry
`-2` produced by one soft-MLG iteration on `Hex2` with input `[-1, 1]`. -/
theorem mlg_register_saturation_witness :
    mlgMinB true Hex2 ≤ -2 ∧ (-2 : ℚ) ≤ mlgMaxB true Hex2 :=
  mlg_register_saturation Hex2 0 true false [-1, 1] 1 (-2) (by decide)

/-- C8 (confirmed): in a bit-flipping iteration, `T` is the maximum of the
decision metric over columns `[0, n)`, and the flip pass toggles `out[j]`
exactly for the columns of the flip set — `e[j] = T` for plain BF,
`|e[j] - T| < EPSILON_FLIP` for the weighted variants — all within the same
iteration; the loop applies exactly this pass whenever the syndrome check
does not terminate it. -/
theorem bf_flip_set (H : CtrlMat) (alpha : ℚ) (inp : List ℚ)
    (weighted modified improved : Bool) (out : List Nat) (hn : 1 ≤ H.n) :
    (bfT H alpha inp weighted modified improved (syndrome H out) ∈
        (List.range H.n).map
          (bfE H alpha inp weighted modified improved (syndrome H out)) ∧
      ∀ j < H.n,
        bfE H alpha inp weighted modified improved (syndrome H out) j ≤
          bfT H alpha inp weighted modified improved (syndrome H out)) ∧
    (∀ j < H.n,
      (nth (bfFlipStep H alpha inp weighted modified improved out) j ≠
          nth out j ↔
        (if weighted = true then
          cppAbs (bfE H alpha inp weighted modified improved
              (syndrome H out) j -
            bfT H alpha inp weighted modified improved (syndrome H out)) <
            EPSILON_FLIP
        else
          bfE H alpha inp weighted modified improved (syndrome H out) j =
            bfT H alpha inp weighted modified improved (syndrome H out)))) ∧
    (∀ fuel : Nat,
      bfLoop H alpha inp weighted modified improved (fuel + 1) out =
        if isCw H (bfSyndromeRows H) out then (true, out)
        else bfLoop H alpha inp weighted modified improved fuel
          (bfFlipStep H alpha inp weighted modified improved out)) := by
  refine ⟨⟨?_, ?_⟩, ?_, fun fuel => rfl⟩
  · apply listMax_mem
    simp only [ne_eq, List.map_eq_nil_iff, List.range_eq_nil]
    omega
  · intro j hj
    exact listMax_le _ (List.mem_map_of_mem _ (List.mem_range.mpr hj))
  · intro j hj
    have hcond : bfFlipCond H alpha inp weighted modified improved
        (syndrome H out) j = true ↔
        (if weighted = true then
          cppAbs (bfE H alpha inp weighted modified improved
              (syndrome H out) j -
            bfT H alpha inp weighted modified improved (syndrome H out)) <
            EPSILON_FLIP
        else
          bfE H alpha inp weighted modified improved (syndrome H out) j =
            bfT H alpha inp weighted modified improved (syndrome H out)) := by
      cases weighted <;> simp [bfFlipCond]
    unfold bfFlipStep
    rw [nth_map_range, if_pos hj]
    by_cases hc : bfFlipCond H alpha inp weighted modified improved
        (syndrome H out) j
    · rw [if_pos hc]
      exact iff_of_true (xor_one_ne _) (hcond.mp hc)
    · rw [if_neg hc]
      exact iff_of_false (fun hne => hne rfl) (fun hr => hc (hcond.mpr hr))

/-- C8 (witness): on `Hex2` with the failed hard decision `[1, 0]`, column 0
achieves the metric maximum and is toggled by the flip pass. -/
theorem bf_flip_set_witness :
    nth (bfFlipStep Hex2 0 [-1, 1] false false false [1, 0]) 0 ≠
      nth [1, 0] 0 :=
  ((bf_flip_set Hex2 0 [-1, 1] false false false [1, 0] (by decide)).2.1 0
    (by decide)).mpr (by decide)

theorem scanStep_inv {S : Multiset ℚ} {m1 m2 : ℚ} {sg : Nat} {q : ℚ}
    (hq : cppAbs q ≤ doubleMax) (h : ScanInv S m1 m2) :
    ScanInv (cppAbs q ::ₘ S) (rowScanStep (m1, m2, sg) q).1
      (rowScanStep (m1, m2, sg) q).2.1 := by
  obtain ⟨hb, h12, h0, h1, hpos, h2⟩ := h
  by_cases hA : cppAbs q < m1
  · have e1 : (rowScanStep (m1, m2, sg) q).1 = cppAbs q := by
      simp [rowScanStep, hA]
    have e2 : (rowScanStep (m1, m2, sg) q).2.1 = m1 := by
      simp [rowScanStep, hA]
    rw [e1, e2]
    refine ⟨?_, le_of_lt hA, ?_, ?_, ?_, ?_⟩
    · intro x hx
      rcases Multiset.mem_cons.mp hx with hx | hx
      · exact hx ▸ hq
      · exact hb x hx
    · intro h'
      exact absurd h' (Multiset.cons_ne_zero)
    · intro hc
      rw [Multiset.card_cons] at hc
      exact (h0 (Multiset.card_eq_zero.mp (by omega))).1
    · intro _
      refine ⟨Multiset.mem_cons_self _ _, ?_⟩
      intro x hx
      rcases Multiset.mem_cons.mp hx with hx | hx
      · exact le_of_eq hx.symm
      · rcases Nat.eq_zero_or_pos (Multiset.card S) with hc | hc
        · rw [Multiset.card_eq_zero.mp hc] at hx
          exact absurd hx (Multiset.not_mem_zero x)
        · exact le_trans (le_of_lt hA) ((hpos hc).2 x hx)
    · intro hc
      rw [Multiset.card_cons] at hc
      rw [Multiset.erase_cons_head]
      exact hpos (by omega)
  · by_cases hB : cppAbs q < m2
    · have e1 : (rowScanStep (m1, m2, sg) q).1 = m1 := by
        simp [rowScanStep, hA, hB]
      have e2 : (rowScanStep (m1, m2, sg) q).2.1 = cppAbs q := by
        simp [rowScanStep, hA, hB]
      rw [e1, e2]
      have hSne : S ≠ 0 := by
        intro h'
        obtain ⟨z1, z2⟩ := h0 h'
        rw [z1] at hA
        rw [z2] at hB
        exact hA hB
      have hcard : 0 < Multiset.card S := Multiset.card_pos.mpr hSne
      obtain ⟨hm1S, hm1le⟩ := hpos hcard
      refine ⟨?_, le_of_not_lt hA, ?_, ?_, ?_, ?_⟩
      · intro x hx
        rcases Multiset.mem_cons.mp hx with hx | hx
        · exact hx ▸ hq
        · exact hb x hx
      · intro h'
        exact absurd h' Multiset.cons_ne_zero
      · intro hc
        rw [Multiset.card_cons] at hc
        omega
      · intro _
        refine ⟨Multiset.mem_cons_of_mem hm1S, ?_⟩
        intro x hx
        rcases Multiset.mem_cons.mp hx with hx | hx
        · exact hx ▸ le_of_not_lt hA
        · exact hm1le x hx
      · intro _
        by_cases heq : cppAbs q = m1
        · rw [heq, Multiset.erase_cons_head]
          exact ⟨heq ▸ hm1S, fun x hx => heq ▸ hm1le x hx⟩
        · rw [Multiset.erase_cons_tail _ heq]
          refine ⟨Multiset.mem_cons_self _ _, ?_⟩
          intro x hx
          rcases Multiset.mem_cons.mp hx with hx | hx
          · exact le_of_eq hx.symm
          · rcases Nat.lt_or_ge (Multiset.card S) 2 with hlt | hge
            · have hc1 : Multiset.card S = 1 := by omega
              obtain ⟨b, hbeq⟩ := Multiset.card_eq_one.mp hc1
              rw [hbeq] at hm1S
              have hm1b : m1 = b := Multiset.mem_singleton.mp hm1S
              rw [hbeq, ← hm1b, Multiset.erase_singleton] at hx
              exact absurd hx (Multiset.not_mem_zero x)
            · exact le_trans (le_of_lt hB) ((h2 hge).2 x hx)
    · have e1 : (rowScanStep (m1, m2, sg) q).1 = m1 := by
        simp [rowScanStep, hA, hB]
      have e2 : (rowScanStep (m1, m2, sg) q).2.1 = m2 := by
        simp [rowScanStep, hA, hB]
      rw [e1, e2]
      have hm2q : m2 ≤ cppAbs q := le_of_not_lt hB
      refine ⟨?_, h12, ?_, ?_, ?_, ?_⟩
      · intro x hx
        rcases Multiset.mem_cons.mp hx with hx | hx
        · exact hx ▸ hq
        · exact hb x hx
      · intro h'
        exact absurd h' Multiset.cons_ne_zero
      · intro hc
        rw [Multiset.card_cons] at hc
        exact (h0 (Multiset.card_eq_zero.mp (by omega))).2
      · intro _
        rcases Nat.eq_zero_or_pos (Multiset.card S) with hc | hc
        · have hS0 := Multiset.card_eq_zero.mp hc
          obtain ⟨z1, z2⟩ := h0 hS0
          have haM : cppAbs q = doubleMax :=
            le_antisymm hq (by rw [← z2]; exact hm2q)
          subst hS0
          refine ⟨?_, ?_⟩
          · exact Multiset.mem_cons.mpr (Or.inl (z1.trans haM.symm))
          · intro x hx
            rcases Multiset.mem_cons.mp hx with hx | hx
            · rw [hx, haM, z1]
            · exact absurd hx (Multiset.not_mem_zero x)
        · obtain ⟨hm1S, hm1le⟩ := hpos hc
          refine ⟨Multiset.mem_cons_of_mem hm1S, ?_⟩
          intro x hx
          rcases Multiset.mem_cons.mp hx with hx | hx
          · exact hx ▸ le_trans h12 hm2q
          · exact hm1le x hx
      · intro hc2
        rw [Multiset.card_cons] at hc2
        rcases Nat.lt_or_ge (Multiset.card S) 2 with hlt | hge
        · have hc1 : Multiset.card S = 1 := by omega
          have hm2M : m2 = doubleMax := h1 hc1
          have haM : cppAbs q = doubleMax := le_antisymm hq (hm2M ▸ hm2q)
          obtain ⟨b, hbeq⟩ := Multiset.card_eq_one.mp hc1
          have hm1b : m1 = b := by
            have hmem := (hpos (by omega)).1
            rw [hbeq] at hmem
            exact Multiset.mem_singleton.mp hmem
          by_cases ham : cppAbs q = m1
          · rw [ham, Multiset.erase_cons_head]
            have hm2b : m2 = b := (hm2M.trans haM.symm).trans (ham.trans hm1b)
            constructor
            · rw [hbeq]
              exact Multiset.mem_singleton.mpr hm2b
            · intro x hx
              rw [hbeq] at hx
              rw [Multiset.mem_singleton.mp hx]
              exact le_of_eq hm2b
          · rw [Multiset.erase_cons_tail _ ham]
            have hSe : S.erase m1 = 0 := by
              rw [hbeq, ← hm1b, Multiset.erase_singleton]
            rw [hSe]
            constructor
            · exact Multiset.mem_singleton.mpr (hm2M.trans haM.symm)
            · intro x hx
              rw [Multiset.mem_singleton.mp hx]
              exact hm2q
        · obtain ⟨hm2mem, hm2le⟩ := h2 hge
          obtain ⟨hm1S, hm1le⟩ := hpos (by omega)
          by_cases ham : cppAbs q = m1
          · rw [ham, Multiset.erase_cons_head]
            refine ⟨Multiset.mem_of_mem_erase hm2mem, ?_⟩
            intro x hx
            rw [← Multiset.cons_erase hm1S] at hx
            rcases Multiset.mem_cons.mp hx with hx | hx
            · rw [hx]
              exact ham ▸ hm2q
            · exact hm2le x hx
          · rw [Multiset.erase_cons_tail _ ham]
            refine ⟨Multiset.mem_cons_of_mem hm2mem, ?_⟩
            intro x hx
            rcases Multiset.mem_cons.mp hx with hx | hx
            · rw [hx]
              exact hm2q
            · exact hm2le x hx

theorem rowScan_go :
    ∀ (l : List ℚ) (acc : ℚ × ℚ × Nat) (S : Multiset ℚ),
      (∀ x ∈ l, cppAbs x ≤ doubleMax) → ScanInv S acc.1 acc.2.1 →
      ScanInv (S + ((l.map cppAbs : List ℚ) : Multiset ℚ))
        (l.foldl rowScanStep acc).1 (l.foldl rowScanStep acc).2.1 := by
  intro l
  induction l with
  | nil => intro acc S _ h; simpa using h
  | cons q t ih =>
    intro acc S hb h
    rw [List.foldl_cons]
    have hms : S + (((q :: t).map cppAbs : List ℚ) : Multiset ℚ) =
        (cppAbs q ::ₘ S) + ((t.map cppAbs : List ℚ) : Multiset ℚ) := by
      rw [List.map_cons, ← Multiset.cons_coe, Multiset.add_cons,
        Multiset.cons_add]
    rw [hms]
    exact ih (rowScanStep acc q) (cppAbs q ::ₘ S)
      (fun x hx => hb x (List.mem_cons_of_mem q hx))
      (scanStep_inv (hb q (List.mem_cons_self q t)) h)

/-- C7 (confirmed): for every min-sum row summary, `min1` is the smallest
magnitude `|Q[i, j]|` over `j in K[i]` and `min2` is the smallest of the
remaining multiset after removing one occurrence of `min1` — so a duplicate
smallest magnitude makes `min2 = min1` — and the check-to-variable update
selects `r = min2` when `|Q[i, j]| = min1` and `r = min1` otherwise.
The bound hypothesis reflects that doubles never exceed `DBL_MAX`, the
sentinel the scan starts from. -/
theorem min_sum_two_minima (H : CtrlMat) (Q : Nat → Nat → ℚ) (i : Nat)
    (hne : Krow H i ≠ [])
    (hb : ∀ j ∈ Krow H i, cppAbs (Q i j) ≤ doubleMax) :
    ((msRow H Q i).1 ∈
        ((((Krow H i).map (fun j => Q i j)).map cppAbs : List ℚ) :
          Multiset ℚ) ∧
      ∀ x ∈ ((((Krow H i).map (fun j => Q i j)).map cppAbs : List ℚ) :
          Multiset ℚ), (msRow H Q i).1 ≤ x) ∧
    (2 ≤ (Krow H i).length →
      (msRow H Q i).2.1 ∈
        ((((Krow H i).map (fun j => Q i j)).map cppAbs : List ℚ) :
          Multiset ℚ).erase (msRow H Q i).1 ∧
      ∀ x ∈ ((((Krow H i).map (fun j => Q i j)).map cppAbs : List ℚ) :
          Multiset ℚ).erase (msRow H Q i).1, (msRow H Q i).2.1 ≤ x) ∧
    (∀ q : ℚ, msSelect (msRow H Q i).1 (msRow H Q i).2.1 (cppAbs q) =
      if cppAbs q = (msRow H Q i).1 then (msRow H Q i).2.1
      else (msRow H Q i).1) := by
  have hbase : ScanInv 0 (doubleMax, doubleMax, (0 : Nat)).1
      (doubleMax, doubleMax, (0 : Nat)).2.1 := by
    refine ⟨?_, le_refl _, fun _ => ⟨rfl, rfl⟩, ?_, ?_, ?_⟩ <;> simp
  have hgo := rowScan_go ((Krow H i).map (fun j => Q i j))
      (doubleMax, doubleMax, 0) 0
      (by
        intro x hx
        rcases List.mem_map.mp hx with ⟨j, hj, rfl⟩
        exact hb j hj)
      hbase
  rw [zero_add] at hgo
  obtain ⟨-, -, -, -, hpos, h2⟩ := hgo
  have hcard : Multiset.card
      ((((Krow H i).map (fun j => Q i j)).map cppAbs : List ℚ) :
        Multiset ℚ) = (Krow H i).length := by
    simp
  refine ⟨?_, ?_, fun q => rfl⟩
  · exact hpos (by
      rw [hcard]
      exact List.length_pos.mpr hne)
  · intro hlen
    exact h2 (by rw [hcard]; exact hlen)

/-- C7 (witness): `min_sum_two_minima` on the row `(2, -2, 5)` of `Qex`,
where two entries tie for the smallest magnitude: `min2 = min1 = 2` is a
member of the magnitude multiset minus one occurrence of `min1`. -/
theorem min_sum_two_minima_witness :
    (msRow Hex3 Qex 0).2.1 ∈
      ((((Krow Hex3 0).map (fun j => Qex 0 j)).map cppAbs : List ℚ) :
        Multiset ℚ).erase (msRow Hex3 Qex 0).1 :=
  ((min_sum_two_minima Hex3 Qex 0 (by decide) (by decide)).2.1 (by decide)).1
